import Mathlib

/-!
Verification of the formal-language toolkit: regular expressions (`rex.py`),
labelled transition systems (`lts.py`), the Thompson-style compiler
(`rex2lts.py`), directed graphs (`graph.py`), context-free grammars
(`grammar.py`) and the recursive-descent parser (`parser.py`).

The Python code is embedded shallowly:

* Python strings standing for words are `List Char`; grammar symbols are
  `String`.
* Python sets are lists managed with membership-guarded insertion, so their
  contents coincide with the set contents; where Python iterates over a set
  (whose order is unspecified) the embedding fixes one admissible order.
* Python dicts are association lists in insertion order, matching dict
  iteration order.
* Code raising an exception (`AttributeError`, `KeyError`, `IndexError`) is
  modelled as returning `none`; recursions that are not structural in the
  source (DFS over a cyclic graph, worklist loops) take an explicit fuel
  parameter and return `none` on exhaustion, with fuel chosen from the
  inputs so that exhaustion is provably or evidently unreachable.
-/

namespace Spec2

/-! ### Regular expressions (`rex.py`) -/

/-- The RE AST: Epsilon, Symbol, Concatenation, Union, KleeneStar.
`Symbol` carries the string payload `value` (possibly several characters). -/
inductive ReX where
  | epsilon : ReX
  | symbol (value : List Char) : ReX
  | concat (first second : ReX) : ReX
  | union (first second : ReX) : ReX
  | star (value : ReX) : ReX
deriving DecidableEq, Repr

/-- Models `ReX.accepts`, clause by clause from `rex.py`:
Epsilon accepts only the empty string; Symbol compares its payload with the
whole string; Concatenation tries every split point `0..len`; Union tries
both children; KleeneStar accepts the empty string and otherwise tries every
non-empty prefix length `1..len` followed by itself on the remainder. -/
def ReX.accepts : ReX → List Char → Bool
  | .epsilon, s => s.isEmpty
  | .symbol v, s => v == s
  | .concat a b, s =>
    (List.range (s.length + 1)).any fun l => a.accepts (s.take l) && b.accepts (s.drop l)
  | .union a b, s => a.accepts s || b.accepts s
  | .star x, s =>
    if h : s = [] then true
    else (List.range s.length).any fun l =>
      x.accepts (s.take (l + 1)) && (ReX.star x).accepts (s.drop (l + 1))
termination_by e s => sizeOf e + s.length
decreasing_by
  all_goals simp_wf
  all_goals try omega
  all_goals have hs : 0 < s.length := List.length_pos.mpr h
  all_goals omega

/-! ### Labelled transition systems (`lts.py`) -/

/-- A transition `(from_, lbl, to)`; the empty label is epsilon. -/
structure Transition where
  from_ : Nat
  lbl : List Char
  to_ : Nat
deriving DecidableEq, Repr

/-- The LTS record: start and end state, state list, label alphabet and the
transition set (a duplicate-free list standing for the Python set). -/
structure LTS where
  start : Nat
  end_ : Nat
  states : List Nat
  tokens : List (List Char)
  transitions : List Transition
deriving DecidableEq, Repr

/-- Models `self.trans_from_lbl[(q, a)]`: the transitions leaving `q` with label
`a`, in the order the index construction in `LTS.__init__` produces them. -/
def transFromLbl (l : LTS) (q : Nat) (a : List Char) : List Transition :=
  l.transitions.filter fun t => t.from_ = q ∧ t.lbl = a

/-- Set-semantics insertion into the transition set. -/
def addTransition (l : List Transition) (t : Transition) : List Transition :=
  if t ∈ l then l else l ++ [t]

/-- Union of two transition sets (`set.update`). -/
def unionTransitions (l m : List Transition) : List Transition :=
  m.foldl addTransition l

/-- The final `return LTS(start, end, range(start, end + 1), ...)` of
`rex2lts`. -/
def mkLTS (s e : Nat) (ts : List Transition) : LTS :=
  ⟨s, e, List.range' s (e + 1 - s), (ts.map (·.lbl)).dedup, ts⟩

/-- Models `rex2lts(rexp, first_state)` from `rex2lts.py`.

The `KleeneStar` branch of the source reads `rexp.inner`, but `KleeneStar`
(in `rex.py`) stores its child in the attribute `value`; the attribute
lookup raises `AttributeError`, modelled as `none`.

The `Concatenation` branch of the source calls `rex2lts(rexp.first)`
without passing `first_state`, so the first operand is compiled from the
default starting index `0`, whatever index the caller allotted. -/
def rex2lts : ReX → Nat → Option LTS
  | .epsilon, f => some (mkLTS f (f + 1) [⟨f, [], f + 1⟩])
  | .symbol v, f => some (mkLTS f (f + 1) [⟨f, v, f + 1⟩])
  | .star _, _ => none
  | .union a b, f => do
    let la ← rex2lts a (f + 1)
    let lb ← rex2lts b (f + 1 + la.states.length)
    let e := lb.end_ + 1
    let ts := unionTransitions la.transitions lb.transitions
    let ts := addTransition ts ⟨f, [], la.start⟩
    let ts := addTransition ts ⟨f, [], lb.start⟩
    let ts := addTransition ts ⟨la.end_, [], e⟩
    let ts := addTransition ts ⟨lb.end_, [], e⟩
    some (mkLTS f e ts)
  | .concat a b, f => do
    let la ← rex2lts a 0
    let lb ← rex2lts b (f + la.states.length)
    let ts := addTransition (unionTransitions la.transitions lb.transitions) ⟨la.end_, [], lb.start⟩
    some (mkLTS la.start lb.end_ ts)

/-! ### The LTS membership test (`LTS.closure` and `LTS.accepts`) -/

/-- One arc of `LTS.closure`'s inner loop: `if tr.to not in set_:
set_.add(tr.to); added.append(tr.to)`.  The worklist is LIFO (Python
appends to and pops from the end; here we push to and pop from the head). -/
def epsSuccStep (sa : List Nat × List Nat) (t : Transition) : List Nat × List Nat :=
  if t.to_ ∈ sa.1 then sa else (sa.1 ++ [t.to_], t.to_ :: sa.2)

/-- The `while added:` worklist loop of `LTS.closure`, with fuel. -/
def closureLoop (l : LTS) : Nat → List Nat → List Nat → Option (List Nat)
  | 0, _, _ => none
  | _ + 1, set_, [] => some set_
  | fuel + 1, set_, cur :: added =>
    let sa := (transFromLbl l cur []).foldl epsSuccStep (set_, added)
    closureLoop l fuel sa.1 sa.2

/-- Fuel sufficient for `closureLoop` (proved below): one pop per worklist
entry plus one per transition target that can still enter the set. -/
def closureFuel (l : LTS) (s0 : List Nat) : Nat :=
  s0.length + (l.transitions.map Transition.to_).length + 1

/-- Models `LTS.closure(states)`. -/
def closureOf (l : LTS) (states : List Nat) : Option (List Nat) :=
  closureLoop l (closureFuel l states.dedup) states.dedup states.dedup

/-- Weight of a frontier pair `(q, i)` for the termination measure of
`LTS.accepts`: expanding a pair at position `i` inserts strictly fewer than
`b` pairs of weight `b ^ (n - i - 1)`. -/
def chainWeight (b n : Nat) (p : Nat × Nat) : Nat := b ^ (n - p.2)

/-- Termination measure of the `while reached:` loop. -/
def frontierMeasure (b n : Nat) (fr : List (Nat × Nat)) : Nat :=
  (fr.map (chainWeight b n)).sum

/-- Strict bound on how many pairs one expansion step can insert. -/
def frontierB (l : LTS) : Nat := 2 * l.transitions.length + 1

/-- Models `reached.update(...)`: insert a pair unless already present. -/
def pushPair (fr : List (Nat × Nat)) (p : Nat × Nat) : List (Nat × Nat) :=
  if p ∈ fr then fr else fr ++ [p]

/-- The `while reached:` loop of `LTS.accepts`, with fuel.  Popped pairs
leave the set, so a pair can be re-inserted and re-processed later, exactly
as in the source. -/
def acceptsLoop (l : LTS) (chain : List (List Char)) : Nat → List (Nat × Nat) → Option Bool
  | 0, _ => none
  | _ + 1, [] => some false
  | fuel + 1, (q, i) :: rest =>
    if i = chain.length ∧ q = l.end_ then some true
    else if chain.length ≤ i then acceptsLoop l chain fuel rest
    else
      match transFromLbl l q (chain.getD i []) with
      | [] => acceptsLoop l chain fuel rest
      | ts => do
        let cl ← closureOf l (ts.map Transition.to_)
        acceptsLoop l chain fuel ((cl.map fun x => (x, i + 1)).foldl pushPair rest)

/-- Models `LTS.accepts(chain)`, run with the fuel the termination proof needs. -/
def accepts (l : LTS) (chain : List (List Char)) : Option Bool := do
  let c0 ← closureOf l [l.start]
  acceptsLoop l chain
    (frontierMeasure (frontierB l) chain.length (c0.map fun x => (x, 0)) + 1)
    (c0.map fun x => (x, 0))

/-! ### Context-free grammars (`grammar.py`): the data model -/

/-- One alternative (one right-hand side of a production). -/
abbrev Alt := List String

/-- The `rules` dict in insertion order: non-terminal to its alternatives. -/
abbrev Rules := List (String × List Alt)

/-- Models `ContextFreeGrammar`: terminals, non-terminals, start symbol, rules and
the `_last_used_symbol` counter of the fresh-symbol generator.  The two
symbol sets are duplicate-free lists standing for Python sets. -/
structure Cfg where
  terminals : List String
  nonTerminals : List String
  start : String
  rules : Rules
  lastUsed : Nat
deriving DecidableEq, Repr

/-- Keys of an association list. -/
def keysOf (r : List (String × α)) : List String := r.map Prod.fst

/-- Models `self.rules[k]` when only read: the defaultdict yields `[]` for a
missing key. -/
def lookupGroup (r : Rules) (k : String) : List Alt :=
  ((r.find? fun p => p.1 == k).map Prod.snd).getD []

/-- Models `self.rules[k] = g`: overwrite in place, or append a new key. -/
def setGroup (r : Rules) (k : String) (g : List Alt) : Rules :=
  if k ∈ keysOf r then r.map fun p => if p.1 == k then (k, g) else p
  else r ++ [(k, g)]

/-- The defaultdict side effect of reading `self.rules[k]`: a missing key
is inserted with an empty group. -/
def ensureKey (r : Rules) (k : String) : Rules :=
  if k ∈ keysOf r then r else r ++ [(k, [])]

/-- Models `set.add`. -/
def listInsert (l : List String) (x : String) : List String :=
  if x ∈ l then l else l ++ [x]

/-- The constructor's assertion: every key of the rules dict is a declared
non-terminal. -/
def keysSubset (g : Cfg) : Prop := ∀ k ∈ keysOf g.rules, k ∈ g.nonTerminals

instance (g : Cfg) : Decidable (keysSubset g) := by unfold keysSubset; infer_instance

/-- Applies `f` to the state `n` times (the `while changed:` saturation loops run a
pass that can only grow the set, so enough passes reach the fixed point). -/
def iterApply (f : α → α) : Nat → α → α
  | 0, s => s
  | n + 1, s => iterApply f n (f s)

/-! ### CFG analyses: alive, reachable, vanishing, left recursion -/

/-- One key of one pass of the `alive` loop in `delete_dead`: add the
non-terminal if some alternative uses only terminals and alive symbols. -/
def aliveStep (ts : List String) (s : List String) (p : String × List Alt) : List String :=
  if p.1 ∈ s then s
  else if ∃ r ∈ p.2, ∀ x ∈ r, x ∈ ts ∨ x ∈ s then s ++ [p.1]
  else s

/-- One pass of the `alive` loop over `self.rules.items()`. -/
def alivePass (ts : List String) (rules : Rules) (s : List String) : List String :=
  rules.foldl (aliveStep ts) s

/-- The alive (productive) set computed by `delete_dead`. -/
def aliveList (g : Cfg) : List String :=
  iterApply (alivePass g.terminals g.rules) (g.rules.length + 1) []

/-- Inner loop of the reachability pass: add each rule symbol that is a
non-terminal and not yet reached. -/
def addSyms (nts : List String) (s : List String) (xs : List String) : List String :=
  xs.foldl (fun s2 x => if x ∈ nts ∧ x ∉ s2 then s2 ++ [x] else s2) s

/-- One key of one pass of the `reachable` loop in `delete_unreachable`. -/
def reachStep (nts : List String) (s : List String) (p : String × List Alt) : List String :=
  if p.1 ∈ s then addSyms nts s p.2.flatten else s

/-- One pass of the `reachable` loop. -/
def reachPass (nts : List String) (rules : Rules) (s : List String) : List String :=
  rules.foldl (reachStep nts) s

/-- Models `reachable = set([self.start]) if self.start in self.non_terminals else set()`. -/
def reachSeed (g : Cfg) : List String :=
  if g.start ∈ g.nonTerminals then [g.start] else []

/-- The reachable set computed by `delete_unreachable`. -/
def reachList (g : Cfg) : List String :=
  iterApply (reachPass g.nonTerminals g.rules) (g.nonTerminals.length + 2) (reachSeed g)

/-- One key of one pass of `get_vanishings`: add the non-terminal if some
alternative consists solely of vanishing symbols. -/
def vanishStep (s : List String) (p : String × List Alt) : List String :=
  if p.1 ∈ s then s
  else if ∃ r ∈ p.2, ∀ x ∈ r, x ∈ s then s ++ [p.1]
  else s

/-- One pass of `get_vanishings`. -/
def vanishPass (rules : Rules) (s : List String) : List String :=
  rules.foldl vanishStep s

/-- Models `get_vanishings()`. -/
def getVanishings (g : Cfg) : List String :=
  iterApply (vanishPass g.rules) (g.rules.length + 1) []

/-! ### The graph utility (`graph.py`) -/

/-- Vertex colors of the three-color DFS. -/
inductive Color where
  | notVisited : Color
  | visiting : Color
  | visited : Color
deriving DecidableEq, Repr

/-- Adjacency lists in key order. -/
abbrev Adj := List (String × List String)

/-- Models `self.state`. -/
abbrev ColorMap := List (String × Color)

/-- Models `self.state[v]` (a missing vertex would raise `KeyError`). -/
def lookupColor (st : ColorMap) (v : String) : Option Color :=
  (st.find? fun p => p.1 == v).map Prod.snd

/-- Models `self.state[v] = c`. -/
def setColor (st : ColorMap) (v : String) (c : Color) : ColorMap :=
  st.map fun p => if p.1 == v then (v, c) else p

/-- Models `self.graph[v]` for a vertex known to be present. -/
def adjLookup (adj : Adj) (v : String) : List String :=
  ((adj.find? fun p => p.1 == v).map Prod.snd).getD []

/-- Models `Graph._dfs(v)` with fuel bounding the recursion depth.
`some none` models the `CycleFound` exception, `some (some st)` normal
return, `none` fuel exhaustion or a `KeyError` on an unknown vertex. -/
def dfsVisit (adj : Adj) : Nat → ColorMap → String → Option (Option ColorMap)
  | 0, _, _ => none
  | fuel + 1, st, v =>
    match lookupColor st v with
    | none => none
    | some Color.visited => some (some st)
    | some Color.visiting => some none
    | some Color.notVisited =>
      match (adjLookup adj v).foldl
        (fun acc u =>
          match acc with
          | none => none
          | some none => some none
          | some (some st2) => dfsVisit adj fuel st2 u)
        (some (some (setColor st v Color.visiting))) with
      | none => none
      | some none => some none
      | some (some st3) => some (some (setColor st3 v Color.visited))

/-- Models `Graph.has_cycle()`: run the DFS from every vertex; `CycleFound` means
`true`.  The nesting depth of `_dfs` is at most one more than the number of
vertices, so `adj.length + 2` fuel per start vertex never runs out. -/
def hasCycle (adj : Adj) : Option Bool :=
  match adj.foldl
    (fun acc p =>
      match acc with
      | none => none
      | some none => some none
      | some (some st) => dfsVisit adj (adj.length + 2) st p.1)
    (some (some (adj.map fun p => (p.1, Color.notVisited)))) with
  | none => none
  | some none => some true
  | some (some _) => some false

/-- One saturation pass computing the vertices reachable from the current
set (the visited set of `Graph.find_reachables`' DFS, order aside). -/
def graphPass (adj : Adj) (s : List String) : List String :=
  adj.foldl
    (fun s2 p =>
      if p.1 ∈ s2 then p.2.foldl (fun s3 u => if u ∉ s3 then s3 ++ [u] else s3) s2 else s2)
    s

/-- Models `Graph.find_reachables()[v]`: the set of vertices reachable from `v`
(including `v`), as a saturation of `graphPass`. -/
def graphReach (adj : Adj) (v : String) : List String :=
  iterApply (graphPass adj) ((adj.map fun p => p.2.length).sum + 2) [v]

/-! ### Left-recursion detection (`has_left_recursion`) -/

/-- The edges one alternative contributes in `has_left_recursion`: scan the
rule left to right, stop at the first symbol that is not a non-terminal;
each non-terminal met becomes an edge, and scanning continues past it only
while it is vanishing. -/
def ruleEdges (nts vanish : List String) : Alt → List String
  | [] => []
  | x :: rest =>
    if x ∉ nts then []
    else if x ∈ vanish then x :: ruleEdges nts vanish rest
    else [x]

/-- Models `graph[symbol].add(sec_symbol)` for each edge: a key that is not a
vertex raises `KeyError` (`none`); adding to the set ignores duplicates. -/
def addEdges (adj : Adj) (k : String) (es : List String) : Option Adj :=
  es.foldl
    (fun acc x =>
      match acc with
      | none => none
      | some a =>
        if k ∈ keysOf a then
          some (a.map fun p => if p.1 == k then (p.1, listInsert p.2 x) else p)
        else none)
    (some adj)

/-- Models `has_left_recursion()`: build the vanishing-prefix graph over the
non-terminals and test it for a cycle. -/
def hasLeftRecursion (g : Cfg) : Option Bool := do
  let vanish := getVanishings g
  let adj ← g.rules.foldl
    (fun acc p =>
      match acc with
      | none => none
      | some a =>
        p.2.foldl
          (fun acc2 r =>
            match acc2 with
            | none => none
            | some a2 => addEdges a2 p.1 (ruleEdges g.nonTerminals vanish r))
          (some a))
    (some (g.nonTerminals.map fun n => (n, [])))
  hasCycle adj

/-! ### CFG rewrites -/

/-- Models `delete_dead()`.  The pop loop `self.rules.pop(symbol)` passes no
default, so a dead non-terminal that is not a key of the rules dict raises
`KeyError`, modelled as `none`; otherwise dead keys are dropped, every
group is filtered down to the alternatives using only terminals and alive
symbols, and the non-terminal set becomes the alive set. -/
def deleteDead (g : Cfg) : Option Cfg :=
  let alive := aliveList g
  if ∀ s ∈ g.nonTerminals, s ∉ alive → s ∈ keysOf g.rules then
    some { g with
      rules := (g.rules.filter fun p => ¬(p.1 ∈ g.nonTerminals ∧ p.1 ∉ alive)).map
        fun p => (p.1, p.2.filter fun r => ∀ x ∈ r, x ∈ g.terminals ∨ x ∈ alive),
      nonTerminals := alive }
  else none

/-- Models `delete_unreachable()` (its pop passes a default, so it is total):
drop the keys of unreachable non-terminals and shrink the non-terminal set
to the reachable one.  Groups are not filtered. -/
def deleteUnreachable (g : Cfg) : Cfg :=
  let reach := reachList g
  { g with
    rules := g.rules.filter fun p => ¬(p.1 ∈ g.nonTerminals ∧ p.1 ∉ reach),
    nonTerminals := reach }

/-- Models `delete_extra_non_terminals()`: dead first, then unreachable. -/
def deleteExtraNonTerminals (g : Cfg) : Option Cfg :=
  (deleteDead g).map deleteUnreachable

/-- Python slice `l[a:b]`. -/
def sliceL (l : List String) (a b : Nat) : List String := (l.drop a).take (b - a)

/-- The inner loop of `delete_vanishings` building one `new_rule` for one
`mask`: walk the vanishing positions (with the sentinel `len(rule)`
appended), keeping the slice before each position and including the
position itself exactly when its bit is set in the mask. -/
def maskSegments (rule : Alt) (mask : Nat) : Nat → Nat → List Nat → Alt
  | _, _, [] => []
  | beg, i, ind :: rest =>
    sliceL rule beg (ind + (if mask.testBit i then 1 else 0)) ++
      maskSegments rule mask (ind + 1) (i + 1) rest

/-- All replacement alternatives `delete_vanishings` generates from one
alternative: one per mask over its vanishing positions, empty results
dropped. -/
def rewriteAlt (vanish : List String) (rule : Alt) : List Alt :=
  let inds := (rule.enum.filter fun p => p.2 ∈ vanish).map Prod.fst
  ((List.range (2 ^ inds.length)).map fun mask =>
      maskSegments rule mask 0 0 (inds ++ [rule.length])).filter
    fun r => r ≠ []

/-- The `while` loop of `_get_next_unused`, with fuel: try decimal names
from the counter upward until one is outside both symbol sets. -/
def nextUnusedGo (nts ts : List String) : Nat → Nat → Option (String × Nat)
  | 0, _ => none
  | fuel + 1, c =>
    if Nat.repr c ∈ nts ∨ Nat.repr c ∈ ts then nextUnusedGo nts ts fuel (c + 1)
    else some (Nat.repr c, c)

/-- Models `_get_next_unused()`: returns the fresh name and the updated counter.
At most `|N| + |T|` candidates can be occupied, so the fuel suffices
whenever distinct numbers have distinct decimal names. -/
def getNextUnused (nts ts : List String) (c : Nat) : Option (String × Nat) :=
  nextUnusedGo nts ts (nts.length + ts.length + 1) c

/-- Models `delete_vanishings()`: rewrite every group through `rewriteAlt`; when
the start symbol is vanishing, add a fresh start with the two alternatives
`[old start]` and `[]`. -/
def deleteVanishings (g : Cfg) : Option Cfg :=
  let vanish := getVanishings g
  let r2 := g.rules.map fun p => (p.1, p.2.flatMap (rewriteAlt vanish))
  if g.start ∈ vanish then
    match getNextUnused g.nonTerminals g.terminals g.lastUsed with
    | none => none
    | some (ns, c) => some { g with
        nonTerminals := listInsert g.nonTerminals ns,
        rules := setGroup r2 ns [[g.start], []],
        start := ns,
        lastUsed := c }
  else some { g with rules := r2 }

/-- Is the alternative a unit (chain) rule `A -> B`? -/
def isUnitAlt (nts : List String) : Alt → Bool
  | [x] => decide (x ∈ nts)
  | _ => false

/-- Models `delete_chain_rules()`: reading `self.rules[v]` for every non-terminal
inserts missing keys (defaultdict); build the unit-rule graph; strip unit
alternatives everywhere; then, for every pair `a ≠ b` with `b` reachable
from `a` in the unit graph, append `b`'s stripped group to `a`'s. -/
def deleteChainRules (g : Cfg) : Cfg :=
  let r0 := g.nonTerminals.foldl ensureKey g.rules
  let adj : Adj := g.nonTerminals.map fun v =>
    (v, (lookupGroup r0 v).filterMap fun r =>
      match r with
      | [x] => if x ∈ g.nonTerminals then some x else none
      | _ => none)
  let stripped := r0.map fun p => (p.1, p.2.filter fun r => !isUnitAlt g.nonTerminals r)
  let extended := g.nonTerminals.foldl
    (fun acc a =>
      (graphReach adj a).foldl
        (fun acc2 b =>
          if a ≠ b then setGroup acc2 a (lookupGroup acc2 a ++ lookupGroup stripped b) else acc2)
        acc)
    stripped
  { g with rules := extended }

/-! ### `eliminate_left_recursion` -/

/-- Models `nonterminals[ind], nonterminals[-1] = nonterminals[-1],
nonterminals[ind]` for `ind = nonterminals.index(start)`. -/
def swapStartLast (l : List String) (s : String) : List String :=
  if s ∈ l then (l.set (l.indexOf s) (l.getLastD "")).set (l.length - 1) s else l

/-- The `while nonterminals:` loop of `eliminate_left_recursion`.  The
argument list is the reversed worklist, so popping from the end of the
Python list is taking the head here; `rest.reverse` restores the remaining
list in Python order for the substitution pass.  An empty alternative in a
group with direct left recursion would make `rule[0]` raise `IndexError`
(`none`). -/
def elimLoopRev : Cfg → List String → Option Cfg
  | g, [] => some g
  | g, nt :: rest =>
    let r0 := ensureKey g.rules nt
    let group := lookupGroup r0 nt
    if ¬ ∃ r ∈ group, r.head? = some nt then
      elimLoopRev { g with rules := r0 } rest
    else if [] ∈ group then none
    else
      let ntRules := (group.filter fun r => r.head? == some nt).map List.tail
      let others := group.filter fun r => !(r.head? == some nt)
      match getNextUnused g.nonTerminals g.terminals g.lastUsed with
      | none => none
      | some (ns, c) =>
        let rules1 := setGroup r0 nt (others.map fun r => r ++ [ns])
        let rules2 := setGroup rules1 ns ((ntRules.map fun r => r ++ [ns]) ++ [[]])
        let rules3 := rest.reverse.foldl
          (fun rs bigger =>
            let rs0 := ensureKey rs bigger
            let bg := lookupGroup rs0 bigger
            if ∃ r ∈ bg, r.head? = some nt then
              setGroup rs0 bigger (bg.flatMap fun r =>
                if r.head? == some nt then (lookupGroup rs0 nt).map fun ntl => ntl ++ r.tail
                else [r])
            else rs0)
          rules2
        elimLoopRev
          { g with rules := rules3, nonTerminals := listInsert g.nonTerminals ns, lastUsed := c }
          rest

/-- Models `eliminate_left_recursion()`: no-op when no left recursion is
detected; otherwise normalize (extras, vanishings, chains, extras) and run
the elimination loop with the start symbol moved to the end of the list
(hence popped first). -/
def eliminateLeftRecursion (g : Cfg) : Option Cfg := do
  let hasRec ← hasLeftRecursion g
  if hasRec then do
    let g1 ← deleteExtraNonTerminals g
    let g2 ← deleteVanishings g1
    let g3 := deleteChainRules g2
    let g4 ← deleteExtraNonTerminals g3
    elimLoopRev g4 (swapStartLast g4.nonTerminals g4.start).reverse
  else some g

/-! ### `left_factorize` and the parser constructor -/

/-- Models `rules_by_first`: group a rule group by first symbol (`''` for the
empty alternative), keys in first-occurrence order. -/
def groupByFirst (group : List Alt) : List (String × List Alt) :=
  group.foldl
    (fun acc r =>
      let k := r.headD ""
      if k ∈ keysOf acc then acc.map fun p => if p.1 == k then (p.1, p.2 ++ [r]) else p
      else acc ++ [(k, [r])])
    []

/-- Models `_left_factorize_group(non_term)`, with fuel for its recursion on the
freshly created symbols.  State threaded: rules, non-terminals, counter. -/
def lfGroup (ts : List String) : Nat → Rules → List String → Nat → String →
    Option (Rules × List String × Nat)
  | 0, _, _, _, _ => none
  | fuel + 1, rules, nts, c, nt =>
    let r0 := ensureKey rules nt
    match (groupByFirst (lookupGroup r0 nt)).foldl
      (fun acc p =>
        match acc with
        | none => none
        | some (newRules, newSyms, rs, n2, c2) =>
          if p.1 = "" ∨ p.1 ∈ ts ∨ p.2.length < 2 then
            some (newRules ++ p.2, newSyms, rs, n2, c2)
          else
            match getNextUnused n2 ts c2 with
            | none => none
            | some (nb, c3) =>
              some (newRules ++ [[p.1, nb]], newSyms ++ [nb],
                setGroup rs nb (p.2.map List.tail), listInsert n2 nb, c3))
      (some ([], [], r0, nts, c)) with
    | none => none
    | some (newRules, newSyms, rs, n2, c2) =>
      newSyms.foldl
        (fun acc ns =>
          match acc with
          | none => none
          | some (r, n, cc) => lfGroup ts fuel r n cc ns)
        (some (setGroup rs nt newRules, n2, c2))

/-- Ample fuel for `lfGroup`: each recursion level strictly shrinks the
total size of the group it was spawned from. -/
def lfFuel (g : Cfg) : Nat :=
  (g.rules.map fun p => (p.2.map List.length).sum + p.2.length).sum +
    g.nonTerminals.length + g.rules.length + 2

/-- Models `left_factorize()`: factor every group of a copy of the current
non-terminal list. -/
def leftFactorize (g : Cfg) : Option Cfg :=
  match g.nonTerminals.foldl
    (fun acc nt =>
      match acc with
      | none => none
      | some (r, n, c) => lfGroup g.terminals (lfFuel g) r n c nt)
    (some (g.rules, g.nonTerminals, g.lastUsed)) with
  | none => none
  | some (r, n, c) => some { g with rules := r, nonTerminals := n, lastUsed := c }

/-- Models `Parser.__init__(grammar)`: the constructor deep-copies its argument
and then normalizes the private copy in place.  The pair is (the parser's
internal grammar, the caller's grammar after the call); because of the deep
copy the mutations performed by `eliminate_left_recursion` and
`left_factorize` touch only the first component, so the second is the
argument itself. -/
def parserInit (g : Cfg) : Option Cfg × Cfg :=
  ((eliminateLeftRecursion g).bind leftFactorize, g)

/-! ### Concrete grammars used by the theorems -/

/-- The grammar `R = A : [[A]]` over no terminals (from `test_has_recursion`). -/
def gLoop : Cfg := ⟨[], ["A"], "A", [("A", [["A"]])], 0⟩

/-- The grammar `R = A:[[B,C]], B:[[C]], C:[[]]` (from `test_has_recursion`). -/
def gChainNull : Cfg :=
  ⟨["a", "b"], ["A", "B", "C"], "A", [("A", [["B", "C"]]), ("B", [["C"]]), ("C", [[]])], 0⟩

/-- The grammar `R = A:[[B,C]], B:[[]], C:[[A,B]]`: indirect left recursion through the
nullable `B` (from `test_has_recursion`). -/
def gIndirect : Cfg :=
  ⟨["a", "b"], ["A", "B", "C"], "A", [("A", [["B", "C"]]), ("B", [[]]), ("C", [["A", "B"]])], 0⟩

/-- A well-formed grammar whose rules dict omits the non-terminal `B`. -/
def gOmitted : Cfg := ⟨["a"], ["A", "B"], "A", [("A", [["a"]])], 0⟩

/-- Mutually left-recursive grammar whose recursion is only indirect:
`A -> B a | d`, `B -> A b | e`.  No alternative of `A` begins with `A` and
no alternative of `B` begins with `B`, at any point of the elimination. -/
def gMutual : Cfg :=
  ⟨["a", "b", "d", "e"], ["A", "B"], "A",
    [("A", [["B", "a"], ["d"]]), ("B", [["A", "b"], ["e"]])], 0⟩

/-- The grammar `S -> A B | c`, `A -> a`, `B -> B`: here `B` is dead, so `delete_dead`
removes the alternative `A B` and `A` becomes unreachable although it is
both alive and reachable in the input grammar. -/
def gAliveReach : Cfg :=
  ⟨["a", "c"], ["S", "A", "B"], "S",
    [("S", [["A", "B"], ["c"]]), ("A", [["a"]]), ("B", [["B"]])], 0⟩

/-- What `delete_extra_non_terminals` produces on `gAliveReach`. -/
def gAliveReachOut : Cfg := ⟨["a", "c"], ["S"], "S", [("S", [["c"]])], 0⟩

/-- The balanced-brackets grammar of `test_parser_brackets`. -/
def gBrackets : Cfg :=
  ⟨["(", ")"], ["A"], "A", [("A", [["(", "A", ")"], [], ["A", "A"]])], 0⟩

/-- The vanishing-start grammar of `test_delete_vanishings`. -/
def gVanishing : Cfg :=
  ⟨["a", "b"], ["A", "B", "C"], "A", [("A", [["B", "C"]]), ("B", [["C"]]), ("C", [[]])], 0⟩

/-- What `delete_vanishings` produces on `gVanishing`. -/
def gVanishingOut : Cfg :=
  ⟨["a", "b"], ["A", "B", "C", "0"], "0",
    [("A", [["B"], ["C"], ["B", "C"]]), ("B", [["C"]]), ("C", []), ("0", [["A"], []])], 0⟩

end Spec2

namespace Spec2

/-!
## Theorems

One theorem per claim (witnesses and counterexamples where required),
preceded by the helper lemmas they share.
-/

/-! #### Shared helper lemmas about the association-list primitives -/

theorem mem_setGroup {r : Rules} {k : String} {v : List Alt} {p : String × List Alt}
    (h : p ∈ setGroup r k v) : p = (k, v) ∨ p ∈ r := by
  unfold setGroup at h
  split at h
  · rcases List.mem_map.mp h with ⟨q, hq, rfl⟩
    by_cases hk : q.1 == k
    · left; simp [hk]
    · right; simpa [hk] using hq
  · rcases List.mem_append.mp h with h1 | h2
    · right; exact h1
    · left; simpa using h2

theorem lookupGroup_eq_nil_or_mem (r : Rules) (k : String) :
    lookupGroup r k = [] ∨ (k, lookupGroup r k) ∈ r := by
  unfold lookupGroup
  cases h : r.find? (fun p => p.1 == k) with
  | none => left; rfl
  | some q =>
    right
    have hm := List.mem_of_find?_eq_some h
    have hp := List.find?_some h
    have hq1 : q.1 = k := by simpa using hp
    simpa [← hq1] using hm

theorem lookupGroup_map_upd {k : String} {v : List Alt} :
    ∀ r : Rules, k ∈ keysOf r →
      lookupGroup (r.map fun p => if p.1 == k then (k, v) else p) k = v := by
  intro r
  induction r with
  | nil => simp [keysOf]
  | cons q qs ih =>
    intro hk
    rw [List.map_cons]
    by_cases hq : q.1 = k
    · have h1 : (if q.1 == k then (k, v) else q) = (k, v) := by simp [hq]
      rw [h1]
      unfold lookupGroup
      rw [List.find?_cons_of_pos _ (by simp)]
      rfl
    · have h1 : (if q.1 == k then (k, v) else q) = q := by simp [hq]
      rw [h1]
      have hk2 : k ∈ keysOf qs := by
        rcases (by simpa [keysOf] using hk : k = q.1 ∨ k ∈ keysOf qs) with h2 | h2
        · exact absurd h2.symm hq
        · exact h2
      unfold lookupGroup
      rw [List.find?_cons_of_neg _ (by simp [hq])]
      exact ih hk2

theorem lookupGroup_append_new {k : String} {v : List Alt} :
    ∀ r : Rules, k ∉ keysOf r → lookupGroup (r ++ [(k, v)]) k = v := by
  intro r
  induction r with
  | nil =>
    intro _
    unfold lookupGroup
    rw [List.nil_append, List.find?_cons_of_pos _ (by simp)]
    rfl
  | cons q qs ih =>
    intro hk
    have hcons : keysOf (q :: qs) = q.1 :: keysOf qs := rfl
    rw [hcons] at hk
    have hq : ¬ q.1 = k := fun h => hk (by rw [h]; exact List.mem_cons_self _ _)
    have hk2 : k ∉ keysOf qs := fun h => hk (List.mem_cons_of_mem _ h)
    rw [List.cons_append]
    unfold lookupGroup
    rw [List.find?_cons_of_neg _ (by simp [hq])]
    exact ih hk2

theorem lookupGroup_setGroup_self (r : Rules) (k : String) (v : List Alt) :
    lookupGroup (setGroup r k v) k = v := by
  unfold setGroup
  split
  · exact lookupGroup_map_upd r (by assumption)
  · exact lookupGroup_append_new r (by assumption)

theorem mem_listInsert_self (l : List String) (x : String) : x ∈ listInsert l x := by
  unfold listInsert
  split
  · assumption
  · simp

theorem foldl_preserve {α β : Type} {P : α → Prop} {f : α → β → α}
    (h : ∀ a x, P a → P (f a x)) : ∀ (l : List β) (a : α), P a → P (l.foldl f a) := by
  intro l
  induction l with
  | nil => intro a ha; exact ha
  | cons x xs ih => intro a ha; exact ih _ (h _ _ ha)

theorem nextUnusedGo_fresh {nts ts : List String} :
    ∀ (fuel c : Nat) {s : String} {c2 : Nat},
      nextUnusedGo nts ts fuel c = some (s, c2) → s ∉ nts ∧ s ∉ ts := by
  intro fuel
  induction fuel with
  | zero => intro c s c2 h; simp [nextUnusedGo] at h
  | succ n ih =>
    intro c s c2 h
    by_cases hc : Nat.repr c ∈ nts ∨ Nat.repr c ∈ ts
    · rw [nextUnusedGo, if_pos hc] at h
      exact ih _ h
    · rw [nextUnusedGo, if_neg hc] at h
      push_neg at hc
      cases h
      exact hc

theorem getNextUnused_fresh {nts ts : List String} {c : Nat} {s : String} {c2 : Nat}
    (h : getNextUnused nts ts c = some (s, c2)) : s ∉ nts ∧ s ∉ ts :=
  nextUnusedGo_fresh _ _ h

theorem rewriteAlt_ne_nil {v : List String} {rule r : Alt} (h : r ∈ rewriteAlt v rule) :
    r ≠ [] := by
  unfold rewriteAlt at h
  simpa using (List.mem_filter.mp h).2

/-- C1: the claim says `rex2lts(e)` is defined for every RE built from
Epsilon, Symbol, Concatenation, Union, KleeneStar and accepts exactly the
strings `e.accepts` does.  It fails already on `KleeneStar(Symbol('a'))`:
`rex2lts` reads `rexp.inner` but `KleeneStar` stores its child in `value`,
so the call raises `AttributeError` (the module's own `main()` would crash
on its `rex2lts(KleeneStar(Symbol("a")))` check), while the RE side is a
total function accepting the empty string. -/
theorem c1_rex2lts_star_crashes :
    rex2lts (ReX.star (ReX.symbol ['a'])) 0 = none ∧
    ReX.accepts (ReX.star (ReX.symbol ['a'])) [] = true := by
  refine ⟨rfl, ?_⟩
  simp [ReX.accepts]

/-- C2: the claim says `rex2lts(e, f)` returns an LTS whose state set is
the contiguous range starting at `f`, sub-LTSs staying inside the caller's
allotted range.  The `Concatenation` branch calls `rex2lts(rexp.first)`
without forwarding `first_state`, so for
`rex2lts(Concatenation(Symbol('a'), Symbol('b')), 1)` the first operand is
compiled at states `0, 1` and the result's state list is `[0, 1, 2, 3, 4]`,
not the claimed `range(1, 6)`. -/
theorem c2_concat_ignores_first_state :
    (rex2lts (ReX.concat (ReX.symbol ['a']) (ReX.symbol ['b'])) 1).map LTS.states
      = some [0, 1, 2, 3, 4] ∧
    (rex2lts (ReX.concat (ReX.symbol ['a']) (ReX.symbol ['b'])) 1).map LTS.start = some 0 ∧
    [0, 1, 2, 3, 4] ≠ List.range' 1 5 := by
  refine ⟨by decide, by decide, by decide⟩

/-- C3: the claim says `has_left_recursion` is false after
`eliminate_left_recursion`.  On `gMutual` (left-recursive only through the
mutual cycle `A -> B a`, `B -> A b`) the elimination loop never fires: it
substitutes only for symbols with an alternative starting with themselves,
which neither `A` nor `B` ever has, so the grammar comes back unchanged and
still left-recursive.  (No step of the run depends on the unspecified
Python set order: no set of the pipeline ever changes on this input.) -/
theorem c3_eliminate_left_recursion_leaves_recursion :
    eliminateLeftRecursion gMutual = some gMutual ∧
    hasLeftRecursion gMutual = some true := by
  refine ⟨by decide, by decide⟩

/-- C5: the claim says `delete_dead` (hence `delete_extra_non_terminals`)
completes on every well-formed grammar, also when the rules dict omits a
non-terminal.  On `gOmitted` (`B ∈ N` but `B` has no rules entry) the pop
loop executes `self.rules.pop('B')` with no default and raises `KeyError`. -/
theorem c5_delete_dead_keyerror :
    deleteDead gOmitted = none ∧
    deleteExtraNonTerminals gOmitted = none ∧
    keysSubset gOmitted ∧
    "B" ∈ gOmitted.nonTerminals ∧ "B" ∉ keysOf gOmitted.rules := by
  refine ⟨by decide, by decide, by decide, by decide, by decide⟩

theorem keysOf_map_values (r : Rules) (f : String × List Alt → List Alt) :
    keysOf (r.map fun p => (p.1, f p)) = keysOf r := by
  simp [keysOf, List.map_map]

/-- C6: after `delete_vanishings` no group except (possibly) the new
start's contains the empty alternative — the mask rewrite drops every empty
result — and the fresh start (with group `[[old start], []]`, fresh for
both symbol sets) is introduced exactly when the original start was
vanishing; otherwise the start, the non-terminal set and the rule keys are
untouched and no group at all keeps an empty alternative. -/
theorem c6_delete_vanishings_post (g g' : Cfg) (h : deleteVanishings g = some g') :
    (∀ p ∈ g'.rules, p.1 ≠ g'.start → [] ∉ p.2) ∧
    (g.start ∉ getVanishings g →
      g'.start = g.start ∧ g'.nonTerminals = g.nonTerminals ∧
      keysOf g'.rules = keysOf g.rules ∧ ∀ p ∈ g'.rules, [] ∉ p.2) ∧
    (g.start ∈ getVanishings g →
      g'.start ∉ g.nonTerminals ∧ g'.start ∉ g.terminals ∧
      g'.start ∈ g'.nonTerminals ∧
      lookupGroup g'.rules g'.start = [[g.start], []]) := by
  have hr2 : ∀ p ∈ g.rules.map fun p => (p.1, p.2.flatMap (rewriteAlt (getVanishings g))),
      [] ∉ p.2 := by
    intro p hp hnil
    rcases List.mem_map.mp hp with ⟨q, _, rfl⟩
    rcases List.mem_flatMap.mp hnil with ⟨rule, _, hmem⟩
    exact rewriteAlt_ne_nil hmem rfl
  simp only [deleteVanishings] at h
  by_cases hvan : g.start ∈ getVanishings g
  · rw [if_pos hvan] at h
    cases hn : getNextUnused g.nonTerminals g.terminals g.lastUsed with
    | none => rw [hn] at h; cases h
    | some sc =>
      obtain ⟨ns, c⟩ := sc
      rw [hn] at h
      simp only [Option.some.injEq] at h
      subst h
      obtain ⟨hn1, hn2⟩ := getNextUnused_fresh hn
      refine ⟨?_, fun hcontra => absurd hvan hcontra, fun _ => ⟨hn1, hn2, ?_, ?_⟩⟩
      · intro p hp hne hnil
        rcases mem_setGroup hp with h1 | h1
        · exact hne (by rw [h1])
        · exact hr2 p h1 hnil
      · exact mem_listInsert_self _ _
      · exact lookupGroup_setGroup_self _ _ _
  · rw [if_neg hvan] at h
    simp only [Option.some.injEq] at h
    subst h
    refine ⟨fun p hp _ => hr2 p hp, fun _ => ⟨rfl, rfl, keysOf_map_values _ _, hr2⟩,
      fun hcontra => absurd hcontra hvan⟩

/-- Witness for C6 at the `test_delete_vanishings` grammar (vanishing
start): the hypotheses hold and the main postcondition is instantiated. -/
theorem c6_delete_vanishings_post_witness :
    deleteVanishings gVanishing = some gVanishingOut ∧
    (∀ p ∈ gVanishingOut.rules, p.1 ≠ gVanishingOut.start → [] ∉ p.2) :=
  ⟨by decide, (c6_delete_vanishings_post gVanishing gVanishingOut (by decide)).1⟩

/-- The extension loops of `delete_chain_rules` preserve unit-freeness:
every appended block is a group of the stripped rules. -/
theorem chain_extend_unit_free (nts : List String) (stripped : Rules)
    (reachF : String → List String)
    (hstr : ∀ q ∈ stripped, ∀ y : String, [y] ∈ q.2 → y ∉ nts) (outer : List String) :
    ∀ q ∈ outer.foldl
        (fun acc a =>
          (reachF a).foldl
            (fun acc2 b =>
              if a ≠ b then setGroup acc2 a (lookupGroup acc2 a ++ lookupGroup stripped b)
              else acc2)
            acc)
        stripped,
      ∀ y : String, [y] ∈ q.2 → y ∉ nts := by
  apply foldl_preserve
    (P := fun rs : Rules => ∀ q ∈ rs, ∀ y : String, [y] ∈ q.2 → y ∉ nts) _ outer stripped hstr
  intro acc a hacc
  apply foldl_preserve
    (P := fun rs : Rules => ∀ q ∈ rs, ∀ y : String, [y] ∈ q.2 → y ∉ nts) _ (reachF a) acc hacc
  intro acc2 b hacc2
  split
  · intro q hq y hy
    rcases mem_setGroup hq with h1 | h1
    · subst h1
      rcases List.mem_append.mp hy with h2 | h2
      · rcases lookupGroup_eq_nil_or_mem acc2 a with hl | hl
        · rw [hl] at h2; cases h2
        · exact hacc2 _ hl y h2
      · rcases lookupGroup_eq_nil_or_mem stripped b with hl | hl
        · rw [hl] at h2; cases h2
        · exact hstr _ hl y h2
    · exact hacc2 q h1 y hy
  · exact hacc2

/-- C7: after `delete_chain_rules` no alternative of any group is a single
non-terminal: stripped groups are unit-free by the filter, and the appended
copies are themselves stripped groups. -/
theorem c7_delete_chain_rules_unit_free (g : Cfg) :
    ∀ p ∈ (deleteChainRules g).rules, ∀ x : String, [x] ∈ p.2 → x ∉ g.nonTerminals := by
  intro p hp x hmem
  simp only [deleteChainRules] at hp
  refine chain_extend_unit_free g.nonTerminals _ _ ?_ _ p hp x hmem
  intro q hq y hy
  rcases List.mem_map.mp hq with ⟨w, _, rfl⟩
  have hfalse := (List.mem_filter.mp hy).2
  simp only [isUnitAlt, Bool.not_eq_true'] at hfalse
  simpa using hfalse

/-- Witness for C7 at `gMutual`, whose result keeps the single-terminal
alternative `[d]` of `A`: the theorem applies with every hypothesis
discharged concretely. -/
theorem c7_delete_chain_rules_unit_free_witness :
    ("A", [["B", "a"], ["d"]]) ∈ (deleteChainRules gMutual).rules ∧
    ["d"] ∈ [["B", "a"], ["d"]] ∧ "d" ∉ gMutual.nonTerminals :=
  ⟨by decide, by decide,
    c7_delete_chain_rules_unit_free gMutual ("A", [["B", "a"], ["d"]]) (by decide) "d" (by decide)⟩

/-! #### Termination of `LTS.closure` and `LTS.accepts` (claim C10) -/

/-- The targets an LTS can ever add to a closure set. -/
def targetList (l : LTS) : List Nat := l.transitions.map Transition.to_

theorem transFromLbl_sub {l : LTS} {q : Nat} {a : List Char} {t : Transition}
    (h : t ∈ transFromLbl l q a) : t ∈ l.transitions :=
  (List.mem_filter.mp h).1

/-- Invariant of the inner fold of `closureLoop`: the set stays
duplicate-free, pops plus the still-missing targets are conserved, and the
set only grows by transition targets. -/
theorem epsFold_invariant (univ : Finset Nat) :
    ∀ (ts : List Transition), (∀ t ∈ ts, t.to_ ∈ univ) →
      ∀ sa : List Nat × List Nat, sa.1.Nodup →
        (ts.foldl epsSuccStep sa).1.Nodup ∧
        (ts.foldl epsSuccStep sa).2.length + (univ \ (ts.foldl epsSuccStep sa).1.toFinset).card
          = sa.2.length + (univ \ sa.1.toFinset).card ∧
        (ts.foldl epsSuccStep sa).1.toFinset ⊆ sa.1.toFinset ∪ univ := by
  intro ts
  induction ts with
  | nil =>
    intro _ sa hnd
    exact ⟨hnd, rfl, Finset.subset_union_left⟩
  | cons t ts ih =>
    intro hts sa hnd
    rw [List.foldl_cons]
    by_cases hmem : t.to_ ∈ sa.1
    · have hstep : epsSuccStep sa t = sa := by simp [epsSuccStep, hmem]
      rw [hstep]
      exact ih (fun u hu => hts u (List.mem_cons_of_mem _ hu)) sa hnd
    · have hstep : epsSuccStep sa t = (sa.1 ++ [t.to_], t.to_ :: sa.2) := by
        simp [epsSuccStep, hmem]
      rw [hstep]
      have htu : t.to_ ∈ univ := hts t (List.mem_cons_self _ _)
      have hnd2 : (sa.1 ++ [t.to_]).Nodup := by
        simp [List.nodup_append, hnd, hmem]
      obtain ⟨ha, hb, hc⟩ :=
        ih (fun u hu => hts u (List.mem_cons_of_mem _ hu)) (sa.1 ++ [t.to_], t.to_ :: sa.2) hnd2
      have hset : (sa.1 ++ [t.to_]).toFinset = insert t.to_ sa.1.toFinset := by
        rw [List.toFinset_append]
        simp only [List.toFinset_cons, List.toFinset_nil, insert_emptyc_eq]
        rw [Finset.union_comm]
        exact (Finset.insert_eq _ _).symm
      refine ⟨ha, ?_, ?_⟩
      · rw [hb]
        have hdiff : univ \ (sa.1 ++ [t.to_]).toFinset = (univ \ sa.1.toFinset).erase t.to_ := by
          rw [hset, Finset.sdiff_insert]
        have hin : t.to_ ∈ univ \ sa.1.toFinset := by
          rw [Finset.mem_sdiff]
          exact ⟨htu, fun hx => hmem (List.mem_toFinset.mp hx)⟩
        have hcard : 0 < (univ \ sa.1.toFinset).card := Finset.card_pos.mpr ⟨_, hin⟩
        rw [hdiff, Finset.card_erase_of_mem hin]
        simp only [List.length_cons]
        omega
      · refine hc.trans ?_
        rw [hset]
        intro x hx
        rcases Finset.mem_union.mp hx with h1 | h1
        · rcases Finset.mem_insert.mp h1 with h2 | h2
          · exact Finset.mem_union_right _ (h2 ▸ htu)
          · exact Finset.mem_union_left _ h2
        · exact Finset.mem_union_right _ h1

/-- Fuel sufficiency: `closureLoop` returns within the stated fuel, with a duplicate-free
result drawn from the seeds and the transition targets. -/
theorem closureLoop_total (l : LTS) :
    ∀ (fuel : Nat) (set_ added : List Nat), set_.Nodup →
      added.length + ((targetList l).toFinset \ set_.toFinset).card < fuel →
      ∃ r, closureLoop l fuel set_ added = some r ∧ r.Nodup ∧
        r.toFinset ⊆ set_.toFinset ∪ (targetList l).toFinset := by
  intro fuel
  induction fuel with
  | zero => intro set_ added _ hlt; omega
  | succ fuel ih =>
    intro set_ added hnd hlt
    match added with
    | [] =>
      exact ⟨set_, rfl, hnd, Finset.subset_union_left⟩
    | cur :: added =>
      rw [closureLoop]
      have hts : ∀ t ∈ transFromLbl l cur [], t.to_ ∈ (targetList l).toFinset := by
        intro t ht
        exact List.mem_toFinset.mpr (List.mem_map_of_mem _ (transFromLbl_sub ht))
      obtain ⟨ha, hb, hc⟩ :=
        epsFold_invariant ((targetList l).toFinset) (transFromLbl l cur []) hts
          (set_, added) hnd
      have hmeas :
          ((transFromLbl l cur []).foldl epsSuccStep (set_, added)).2.length +
            ((targetList l).toFinset \
              ((transFromLbl l cur []).foldl epsSuccStep (set_, added)).1.toFinset).card
            < fuel := by
        rw [hb]
        have e1 : ((set_, added) : List Nat × List Nat).2 = added := rfl
        have e2 : ((set_, added) : List Nat × List Nat).1 = set_ := rfl
        rw [e1, e2]
        simp only [List.length_cons] at hlt
        omega
      obtain ⟨r, hr, hrn, hrs⟩ := ih _ _ ha hmeas
      refine ⟨r, hr, hrn, hrs.trans ?_⟩
      intro x hx
      rcases Finset.mem_union.mp hx with h1 | h1
      · rcases Finset.mem_union.mp (hc h1) with h2 | h2
        · exact Finset.mem_union_left _ h2
        · exact Finset.mem_union_right _ h2
      · exact Finset.mem_union_right _ h1

/-- Termination of `LTS.closure`, with output bounded by seeds plus targets. -/
theorem closureOf_total (l : LTS) (states : List Nat) :
    ∃ r, closureOf l states = some r ∧ r.Nodup ∧
      r.length ≤ states.dedup.length + (targetList l).length := by
  have hnd : states.dedup.Nodup := List.nodup_dedup states
  have hlt : states.dedup.length + ((targetList l).toFinset \ states.dedup.toFinset).card
      < closureFuel l states.dedup := by
    unfold closureFuel targetList
    have h1 : ((targetList l).toFinset \ states.dedup.toFinset).card
        ≤ (targetList l).toFinset.card := Finset.card_le_card (Finset.sdiff_subset)
    have h2 : (targetList l).toFinset.card ≤ (targetList l).length := List.toFinset_card_le _
    unfold targetList at h1 h2
    omega
  obtain ⟨r, hr, hrn, hrs⟩ := closureLoop_total l _ _ _ hnd hlt
  refine ⟨r, hr, hrn, ?_⟩
  have h1 := Finset.card_le_card hrs
  have h2 : r.toFinset.card = r.length := List.toFinset_card_of_nodup hrn
  have h3 := Finset.card_union_le states.dedup.toFinset (targetList l).toFinset
  have h4 : states.dedup.toFinset.card ≤ states.dedup.length := List.toFinset_card_le _
  have h5 : (targetList l).toFinset.card ≤ (targetList l).length := List.toFinset_card_le _
  omega

theorem frontierMeasure_cons (b n : Nat) (q i : Nat) (rest : List (Nat × Nat)) :
    frontierMeasure b n ((q, i) :: rest) = b ^ (n - i) + frontierMeasure b n rest := by
  simp [frontierMeasure, chainWeight]

theorem pushPair_measure (b n : Nat) (fr : List (Nat × Nat)) (p : Nat × Nat) :
    frontierMeasure b n (pushPair fr p) ≤ frontierMeasure b n fr + chainWeight b n p := by
  unfold pushPair
  split
  · omega
  · simp [frontierMeasure]

theorem pushAll_measure (b n i : Nat) :
    ∀ (cl : List Nat) (fr : List (Nat × Nat)),
      frontierMeasure b n ((cl.map fun x => (x, i)).foldl pushPair fr)
        ≤ frontierMeasure b n fr + cl.length * b ^ (n - i) := by
  intro cl
  induction cl with
  | nil => simp
  | cons x cl ih =>
    intro fr
    rw [List.map_cons, List.foldl_cons]
    have h1 := ih (pushPair fr (x, i))
    have h2 := pushPair_measure b n fr (x, i)
    have h3 : chainWeight b n (x, i) = b ^ (n - i) := rfl
    rw [h3] at h2
    have h4 : (cl.length + 1) * b ^ (n - i) = cl.length * b ^ (n - i) + b ^ (n - i) :=
      Nat.succ_mul _ _
    simp only [List.length_cons]
    omega

theorem acceptsLoop_total (l : LTS) (chain : List (List Char)) :
    ∀ (fuel : Nat) (fr : List (Nat × Nat)),
      frontierMeasure (frontierB l) chain.length fr < fuel →
      ∃ b, acceptsLoop l chain fuel fr = some b := by
  have hBpos : 0 < frontierB l := by unfold frontierB; omega
  intro fuel
  induction fuel with
  | zero => intro fr hlt; omega
  | succ fuel ih =>
    intro fr hlt
    match fr with
    | [] => exact ⟨false, rfl⟩
    | (q, i) :: rest =>
      rw [frontierMeasure_cons] at hlt
      have hw : 0 < frontierB l ^ (chain.length - i) := Nat.pos_pow_of_pos _ hBpos
      rw [acceptsLoop]
      split
      · exact ⟨true, rfl⟩
      · split
        · exact ih rest (by omega)
        · rename_i hle
          cases hcase : transFromLbl l q (chain.getD i []) with
          | nil => exact ih rest (by omega)
          | cons t ts =>
            obtain ⟨cl, hcl, _, hcllen⟩ := closureOf_total l ((t :: ts).map Transition.to_)
            simp only [hcl, Option.bind_eq_bind, Option.some_bind]
            have hiless : i < chain.length := by omega
            have hlenB : cl.length < frontierB l := by
              have h1 : ((t :: ts).map Transition.to_).dedup.length
                  ≤ ((t :: ts).map Transition.to_).length :=
                (List.dedup_sublist _).length_le
              have h2 : ((t :: ts).map Transition.to_).length = (t :: ts).length :=
                List.length_map _ _
              have h3 : (t :: ts).length ≤ l.transitions.length := by
                rw [← hcase]
                exact List.length_filter_le _ _
              have h4 : (targetList l).length = l.transitions.length := List.length_map _ _
              unfold frontierB
              omega
            have hsplit : frontierB l ^ (chain.length - i)
                = frontierB l ^ (chain.length - (i + 1)) * frontierB l := by
              have : chain.length - i = (chain.length - (i + 1)) + 1 := by omega
              rw [this, pow_succ]
            have hmono :
                frontierMeasure (frontierB l) chain.length
                    ((cl.map fun x => (x, i + 1)).foldl pushPair rest)
                  ≤ frontierMeasure (frontierB l) chain.length rest
                    + cl.length * frontierB l ^ (chain.length - (i + 1)) :=
              pushAll_measure _ _ _ cl rest
            have hstrict : cl.length * frontierB l ^ (chain.length - (i + 1))
                < frontierB l ^ (chain.length - i) := by
              rw [hsplit]
              have hwpos : 0 < frontierB l ^ (chain.length - (i + 1)) :=
                Nat.pos_pow_of_pos _ hBpos
              calc cl.length * frontierB l ^ (chain.length - (i + 1))
                  < frontierB l * frontierB l ^ (chain.length - (i + 1)) :=
                    Nat.mul_lt_mul_of_lt_of_le hlenB (le_refl _) hwpos
                _ = frontierB l ^ (chain.length - (i + 1)) * frontierB l := Nat.mul_comm _ _
            exact ih _ (by omega)

/-- C10: `LTS.accepts(chain)` terminates on every LTS and chain even
though popped pairs can be re-inserted: every inserted pair sits one
position further right, positions are bounded by the chain length, and
each expansion inserts fewer pairs than `frontierB`, so the weighted
frontier measure strictly decreases and the loop's fuel is never
exhausted. -/
theorem c10_accepts_terminates (l : LTS) (chain : List (List Char)) :
    ∃ b, accepts l chain = some b := by
  obtain ⟨c0, hc0, _, _⟩ := closureOf_total l [l.start]
  unfold accepts
  simp only [hc0, Option.bind_eq_bind, Option.some_bind]
  exact acceptsLoop_total l chain _ _ (Nat.lt_succ_self _)

/-! #### Saturation machinery for the `while changed:` fixed-point loops
(claim C4).  The passes only append fresh elements, so iterating a pass one
more time than the size of its universe reaches the least fixed point. -/

theorem iterApply_add {α : Type} (f : α → α) :
    ∀ (m n : Nat) (s : α), iterApply f (m + n) s = iterApply f m (iterApply f n s) := by
  intro m n
  induction n generalizing m with
  | zero => intro s; rfl
  | succ n ih =>
    intro s
    have h1 : m + (n + 1) = (m + n) + 1 := rfl
    rw [h1]
    show iterApply f (m + n) (f s) = _
    rw [ih]
    rfl

theorem iterApply_succ_right {α : Type} (f : α → α) (n : Nat) (s : α) :
    iterApply f (n + 1) s = f (iterApply f n s) := by
  have h1 : n + 1 = 1 + n := by omega
  rw [h1, iterApply_add]
  rfl

theorem iterApply_of_fix {α : Type} {f : α → α} {s : α} (h : f s = s) :
    ∀ n, iterApply f n s = s := by
  intro n
  induction n with
  | zero => rfl
  | succ n ih => rw [iterApply_succ_right, ih, h]

theorem foldl_append_form {α : Type} {step : List String → α → List String}
    (h : ∀ s x, ∃ t, step s x = s ++ t) :
    ∀ (l : List α) (s), ∃ t, l.foldl step s = s ++ t := by
  intro l
  induction l with
  | nil => intro s; exact ⟨[], by simp⟩
  | cons x xs ih =>
    intro s
    obtain ⟨t1, ht1⟩ := h s x
    obtain ⟨t2, ht2⟩ := ih (step s x)
    exact ⟨t1 ++ t2, by rw [List.foldl_cons, ht2, ht1, List.append_assoc]⟩

theorem foldl_eq_self_of_append {α : Type} {step : List String → α → List String}
    (happ : ∀ s x, ∃ t, step s x = s ++ t) :
    ∀ (l : List α) (s), l.foldl step s = s → ∀ x ∈ l, step s x = s := by
  intro l
  induction l with
  | nil => intro s _ x hx; cases hx
  | cons y ys ih =>
    intro s hfold x hx
    obtain ⟨t1, ht1⟩ := happ s y
    obtain ⟨t2, ht2⟩ := foldl_append_form happ ys (step s y)
    rw [List.foldl_cons, ht2, ht1, List.append_assoc] at hfold
    have hnil : t1 ++ t2 = [] := List.append_right_eq_self.mp hfold
    have ht1nil : t1 = [] := by
      cases t1 with
      | nil => rfl
      | cons a b => simp at hnil
    have hstep : step s y = s := by rw [ht1, ht1nil, List.append_nil]
    rcases List.mem_cons.mp hx with h1 | h1
    · rw [h1]; exact hstep
    · have ht2nil : t2 = [] := by
        rw [ht1nil] at hnil
        simpa using hnil
      have ht2' : List.foldl step (step s y) ys = step s y := by
        rw [ht2, ht2nil, List.append_nil]
      have hres := ih (step s y) ht2' x h1
      rw [hstep] at hres
      exact hres

theorem iter_growth {f : List String → List String}
    (happ : ∀ s, ∃ t, f s = s ++ t) {s0 : List String} :
    ∀ k, (∀ m < k, f (iterApply f m s0) ≠ iterApply f m s0) →
      s0.length + k ≤ (iterApply f k s0).length := by
  intro k
  induction k with
  | zero => intro _; simp [iterApply]
  | succ k ih =>
    intro hne
    have h1 := ih (fun m hm => hne m (by omega))
    have h2 := hne k (by omega)
    obtain ⟨t, ht⟩ := happ (iterApply f k s0)
    rw [iterApply_succ_right, ht]
    rw [ht] at h2
    have htne : t ≠ [] := by
      intro h
      rw [h, List.append_nil] at h2
      exact h2 rfl
    have : 1 ≤ t.length := by
      cases t with
      | nil => exact absurd rfl htne
      | cons a b => simp
    rw [List.length_append]
    omega

/-- If every iterate stays within the bound `B`, then after `B + 1` or more
iterations the pass is at a fixed point. -/
theorem iter_fix_ge {f : List String → List String}
    (happ : ∀ s, ∃ t, f s = s ++ t) {s0 : List String} {B : Nat}
    (hB : ∀ n, (iterApply f n s0).length ≤ s0.length + B) :
    ∀ n, B + 1 ≤ n → f (iterApply f n s0) = iterApply f n s0 := by
  intro n hn
  by_cases hfix : ∃ m, m ≤ B ∧ f (iterApply f m s0) = iterApply f m s0
  · obtain ⟨m, hm, hf⟩ := hfix
    have h1 : n = (n - m) + m := by omega
    rw [h1, iterApply_add]
    have h2 : iterApply f (n - m) (iterApply f m s0) = iterApply f m s0 :=
      iterApply_of_fix hf _
    rw [h2]
    exact hf
  · push_neg at hfix
    have hne : ∀ m < B + 1, f (iterApply f m s0) ≠ iterApply f m s0 := by
      intro m hm
      exact hfix m (by omega)
    have h1 := iter_growth happ (B + 1) hne
    have h2 := hB (B + 1)
    omega

/-- Like `foldl_preserve`, but the step hypothesis may use membership of
the folded element in the list. -/
theorem foldl_preserve_mem {α β : Type} {P : α → Prop} {f : α → β → α} :
    ∀ (l : List β), (∀ a, ∀ x ∈ l, P a → P (f a x)) → ∀ a, P a → P (l.foldl f a) := by
  intro l
  induction l with
  | nil => intro _ a ha; exact ha
  | cons x xs ih =>
    intro h a ha
    exact ih (fun b y hy hb => h b y (List.mem_cons_of_mem _ hy) hb) _
      (h a x (List.mem_cons_self _ _) ha)

theorem iterApply_preserve {α : Type} {P : α → Prop} {f : α → α}
    (h : ∀ a, P a → P (f a)) : ∀ (n : Nat) (a), P a → P (iterApply f n a) := by
  intro n
  induction n with
  | zero => intro a ha; exact ha
  | succ n ih => intro a ha; exact ih _ (h _ ha)

/-! Step lemmas for the three grammar analyses. -/

theorem aliveStep_append (ts : List String) (s : List String) (p : String × List Alt) :
    ∃ t, aliveStep ts s p = s ++ t := by
  unfold aliveStep
  split
  · exact ⟨[], by simp⟩
  · split
    · exact ⟨[p.1], rfl⟩
    · exact ⟨[], by simp⟩

theorem alivePass_append (ts : List String) (rules : Rules) (s : List String) :
    ∃ t, alivePass ts rules s = s ++ t :=
  foldl_append_form (aliveStep_append ts) rules s

theorem vanishStep_append (s : List String) (p : String × List Alt) :
    ∃ t, vanishStep s p = s ++ t := by
  unfold vanishStep
  split
  · exact ⟨[], by simp⟩
  · split
    · exact ⟨[p.1], rfl⟩
    · exact ⟨[], by simp⟩

theorem addSyms_append (nts : List String) :
    ∀ (xs : List String) (s), ∃ t, addSyms nts s xs = s ++ t := by
  unfold addSyms
  refine fun xs s => foldl_append_form ?_ xs s
  intro s2 x
  split
  · exact ⟨[x], rfl⟩
  · exact ⟨[], by simp⟩

theorem reachStep_append (nts : List String) (s : List String) (p : String × List Alt) :
    ∃ t, reachStep nts s p = s ++ t := by
  unfold reachStep
  split
  · exact addSyms_append nts _ s
  · exact ⟨[], by simp⟩

theorem reachPass_append (nts : List String) (rules : Rules) (s : List String) :
    ∃ t, reachPass nts rules s = s ++ t :=
  foldl_append_form (reachStep_append nts) rules s

theorem mem_of_append_form {s t : List String} {x : String} (h : x ∈ s) :
    x ∈ s ++ t := List.mem_append_left _ h

/-! Nodup preservation and universe bounds for the passes. -/

theorem aliveStep_nodup (ts : List String) (s : List String) (p : String × List Alt)
    (h : s.Nodup) : (aliveStep ts s p).Nodup := by
  unfold aliveStep
  split
  · exact h
  · split
    · rename_i hmem _
      simp [List.nodup_append, h, hmem]
    · exact h

theorem aliveStep_mem (ts : List String) (s : List String) (p : String × List Alt)
    {x : String} (h : x ∈ aliveStep ts s p) : x ∈ s ∨ x = p.1 := by
  unfold aliveStep at h
  split at h
  · exact Or.inl h
  · split at h
    · rcases List.mem_append.mp h with h1 | h1
      · exact Or.inl h1
      · exact Or.inr (by simpa using h1)
    · exact Or.inl h

theorem vanishStep_nodup (s : List String) (p : String × List Alt)
    (h : s.Nodup) : (vanishStep s p).Nodup := by
  unfold vanishStep
  split
  · exact h
  · split
    · rename_i hmem _
      simp [List.nodup_append, h, hmem]
    · exact h

theorem vanishStep_mem (s : List String) (p : String × List Alt)
    {x : String} (h : x ∈ vanishStep s p) : x ∈ s ∨ x = p.1 := by
  unfold vanishStep at h
  split at h
  · exact Or.inl h
  · split at h
    · rcases List.mem_append.mp h with h1 | h1
      · exact Or.inl h1
      · exact Or.inr (by simpa using h1)
    · exact Or.inl h

theorem addSyms_nodup (nts : List String) :
    ∀ (xs : List String) (s), s.Nodup → (addSyms nts s xs).Nodup := by
  intro xs
  induction xs with
  | nil => intro s h; exact h
  | cons x xs ih =>
    intro s h
    show (addSyms nts (if x ∈ nts ∧ x ∉ s then s ++ [x] else s) xs).Nodup
    apply ih
    split
    · rename_i hcond
      simp [List.nodup_append, h, hcond.2]
    · exact h

theorem addSyms_mem (nts : List String) :
    ∀ (xs : List String) (s) {y : String}, y ∈ addSyms nts s xs → y ∈ s ∨ y ∈ nts := by
  intro xs
  induction xs with
  | nil => intro s y h; exact Or.inl h
  | cons x xs ih =>
    intro s y h
    have h2 := ih (if x ∈ nts ∧ x ∉ s then s ++ [x] else s) h
    rcases h2 with h3 | h3
    · split at h3
      · rename_i hcond
        rcases List.mem_append.mp h3 with h4 | h4
        · exact Or.inl h4
        · exact Or.inr (by simpa using (by simpa using h4 : y = x) ▸ hcond.1)
      · exact Or.inl h3
    · exact Or.inr h3

theorem reachStep_nodup (nts : List String) (s : List String) (p : String × List Alt)
    (h : s.Nodup) : (reachStep nts s p).Nodup := by
  unfold reachStep
  split
  · exact addSyms_nodup nts _ s h
  · exact h

theorem reachStep_mem (nts : List String) (s : List String) (p : String × List Alt)
    {x : String} (h : x ∈ reachStep nts s p) : x ∈ s ∨ x ∈ nts := by
  unfold reachStep at h
  split at h
  · exact addSyms_mem nts _ s h
  · exact Or.inl h

theorem aliveStep_eq_self {ts A : List String} {p : String × List Alt}
    (h : aliveStep ts A p = A) (hc : ∃ r ∈ p.2, ∀ x ∈ r, x ∈ ts ∨ x ∈ A) : p.1 ∈ A := by
  unfold aliveStep at h
  by_cases hm : p.1 ∈ A
  · exact hm
  · rw [if_neg hm, if_pos hc] at h
    exact absurd (List.append_right_eq_self.mp h) (by simp)

theorem addSyms_eq_self {nts s : List String} {xs : List String}
    (h : addSyms nts s xs = s) : ∀ x ∈ xs, x ∈ nts → x ∈ s := by
  intro x hx hnt
  unfold addSyms at h
  have hstep := @foldl_eq_self_of_append String
    (fun s2 x => if x ∈ nts ∧ x ∉ s2 then s2 ++ [x] else s2)
    (fun s2 y => by
      show ∃ t, (if y ∈ nts ∧ y ∉ s2 then s2 ++ [y] else s2) = s2 ++ t
      split
      · exact ⟨[y], rfl⟩
      · exact ⟨[], by simp⟩) xs s h x hx
  by_cases hin : x ∈ s
  · exact hin
  · have hstep2 : (if x ∈ nts ∧ x ∉ s then s ++ [x] else s) = s := hstep
    rw [if_pos ⟨hnt, hin⟩] at hstep2
    exact absurd (List.append_right_eq_self.mp hstep2) (by simp)

theorem reachStep_eq_self {nts s : List String} {p : String × List Alt}
    (h : reachStep nts s p = s) (hp : p.1 ∈ s) :
    ∀ x ∈ p.2.flatten, x ∈ nts → x ∈ s := by
  unfold reachStep at h
  rw [if_pos hp] at h
  exact addSyms_eq_self h

theorem iterApply_append_form {f : List String → List String}
    (happ : ∀ s, ∃ t, f s = s ++ t) :
    ∀ (n : Nat) (s0), ∃ t, iterApply f n s0 = s0 ++ t := by
  intro n
  induction n with
  | zero => intro s0; exact ⟨[], by simp [iterApply]⟩
  | succ n ih =>
    intro s0
    obtain ⟨t1, ht1⟩ := happ s0
    obtain ⟨t2, ht2⟩ := ih (f s0)
    refine ⟨t1 ++ t2, ?_⟩
    show iterApply f n (f s0) = _
    rw [ht2, ht1, List.append_assoc]

theorem length_le_of_nodup_sub {l U : List String} (hnd : l.Nodup)
    (hsub : ∀ x ∈ l, x ∈ U) : l.length ≤ U.length := by
  have h1 : l.toFinset.card = l.length := List.toFinset_card_of_nodup hnd
  have h2 : l.toFinset ⊆ U.toFinset := fun x hx =>
    List.mem_toFinset.mpr (hsub x (List.mem_toFinset.mp hx))
  have h3 := Finset.card_le_card h2
  have h4 := List.toFinset_card_le U
  omega

theorem keysOf_length (r : Rules) : (keysOf r).length = r.length := List.length_map _ _

theorem aliveList_nodup_sub (g : Cfg) (n : Nat) :
    (iterApply (alivePass g.terminals g.rules) n []).Nodup ∧
    ∀ x ∈ iterApply (alivePass g.terminals g.rules) n [], x ∈ keysOf g.rules := by
  refine iterApply_preserve
    (P := fun s => s.Nodup ∧ ∀ x ∈ s, x ∈ keysOf g.rules) ?_ n [] ⟨List.nodup_nil, by simp⟩
  intro s hs
  refine foldl_preserve_mem (P := fun s => s.Nodup ∧ ∀ x ∈ s, x ∈ keysOf g.rules)
    g.rules ?_ s hs
  intro s2 p hp hs2
  refine ⟨aliveStep_nodup _ _ _ hs2.1, ?_⟩
  intro x hx
  rcases aliveStep_mem _ _ _ hx with h1 | h1
  · exact hs2.2 x h1
  · exact h1 ▸ List.mem_map_of_mem _ hp

theorem aliveList_fix (g : Cfg) :
    alivePass g.terminals g.rules (aliveList g) = aliveList g := by
  unfold aliveList
  refine iter_fix_ge (alivePass_append g.terminals g.rules) (B := g.rules.length) ?_ _ (le_refl _)
  intro n
  obtain ⟨hnd, hsub⟩ := aliveList_nodup_sub g n
  have := length_le_of_nodup_sub hnd hsub
  rw [keysOf_length] at this
  simp only [List.length_nil]
  omega

theorem aliveList_sub_keys (g : Cfg) : ∀ x ∈ aliveList g, x ∈ keysOf g.rules :=
  (aliveList_nodup_sub g _).2

theorem aliveList_closed (g : Cfg) :
    ∀ p ∈ g.rules, (∃ r ∈ p.2, ∀ x ∈ r, x ∈ g.terminals ∨ x ∈ aliveList g) →
      p.1 ∈ aliveList g := by
  intro p hp hex
  have hstep := foldl_eq_self_of_append (aliveStep_append g.terminals) g.rules
    (aliveList g) (aliveList_fix g) p hp
  exact aliveStep_eq_self hstep hex

theorem aliveList_induction (g : Cfg) (P : String → Prop)
    (hP : ∀ p ∈ g.rules, ∀ r ∈ p.2, (∀ x ∈ r, x ∈ g.terminals ∨ P x) → P p.1) :
    ∀ x ∈ aliveList g, P x := by
  unfold aliveList
  refine fun x hx => iterApply_preserve (P := fun s => ∀ y ∈ s, P y) ?_ _ [] (by simp) x hx
  intro s hs
  refine foldl_preserve_mem (P := fun s => ∀ y ∈ s, P y) g.rules ?_ s hs
  intro s2 p hp hs2 y hy
  unfold aliveStep at hy
  split at hy
  · exact hs2 y hy
  · split at hy
    · rename_i hcond
      rcases List.mem_append.mp hy with h1 | h1
      · exact hs2 y h1
      · have hy1 : y = p.1 := by simpa using h1
        subst hy1
        obtain ⟨r, hr, hall⟩ := hcond
        exact hP p hp r hr fun z hz => (hall z hz).imp id (hs2 z)
    · exact hs2 y hy

theorem reachSeed_sub (g : Cfg) : ∀ x ∈ reachSeed g, x ∈ g.nonTerminals := by
  intro x hx
  unfold reachSeed at hx
  split at hx
  · rename_i hst
    have : x = g.start := by simpa using hx
    exact this ▸ hst
  · cases hx

theorem reachList_nodup_sub (g : Cfg) (n : Nat) :
    (iterApply (reachPass g.nonTerminals g.rules) n (reachSeed g)).Nodup ∧
    ∀ x ∈ iterApply (reachPass g.nonTerminals g.rules) n (reachSeed g),
      x ∈ g.nonTerminals := by
  have hseednd : (reachSeed g).Nodup := by
    unfold reachSeed
    split
    · simp
    · simp
  refine iterApply_preserve
    (P := fun s => s.Nodup ∧ ∀ x ∈ s, x ∈ g.nonTerminals) ?_ n (reachSeed g)
    ⟨hseednd, reachSeed_sub g⟩
  intro s hs
  refine foldl_preserve_mem (P := fun s => s.Nodup ∧ ∀ x ∈ s, x ∈ g.nonTerminals)
    g.rules ?_ s hs
  intro s2 p _ hs2
  refine ⟨reachStep_nodup _ _ _ hs2.1, ?_⟩
  intro x hx
  rcases reachStep_mem _ _ _ hx with h1 | h1
  · exact hs2.2 x h1
  · exact h1

theorem reachList_fix (g : Cfg) :
    reachPass g.nonTerminals g.rules (reachList g) = reachList g := by
  unfold reachList
  refine iter_fix_ge (reachPass_append g.nonTerminals g.rules) (B := g.nonTerminals.length) ?_ _
    (by omega)
  intro n
  obtain ⟨hnd, hsub⟩ := reachList_nodup_sub g n
  have := length_le_of_nodup_sub hnd hsub
  omega

theorem reachList_sub (g : Cfg) : ∀ x ∈ reachList g, x ∈ g.nonTerminals :=
  (reachList_nodup_sub g _).2

theorem reachList_start (g : Cfg) (h : g.start ∈ g.nonTerminals) :
    g.start ∈ reachList g := by
  unfold reachList
  obtain ⟨t, ht⟩ := iterApply_append_form (reachPass_append g.nonTerminals g.rules)
    (g.nonTerminals.length + 2) (reachSeed g)
  rw [ht]
  refine List.mem_append_left _ ?_
  unfold reachSeed
  rw [if_pos h]
  simp

theorem reachList_closed (g : Cfg) :
    ∀ p ∈ g.rules, p.1 ∈ reachList g →
      ∀ x ∈ p.2.flatten, x ∈ g.nonTerminals → x ∈ reachList g := by
  intro p hp hmem
  have hstep := foldl_eq_self_of_append (reachStep_append g.nonTerminals) g.rules
    (reachList g) (reachList_fix g) p hp
  exact reachStep_eq_self hstep hmem

theorem reachList_induction (g : Cfg) (P : String → Prop)
    (hseed : g.start ∈ g.nonTerminals → P g.start)
    (hP : ∀ p ∈ g.rules, P p.1 → ∀ x ∈ p.2.flatten, x ∈ g.nonTerminals → P x) :
    ∀ x ∈ reachList g, P x := by
  unfold reachList
  have hbase : ∀ y ∈ reachSeed g, P y := by
    intro y hy
    unfold reachSeed at hy
    split at hy
    · rename_i hst
      have : y = g.start := by simpa using hy
      exact this ▸ hseed hst
    · cases hy
  refine fun x hx =>
    iterApply_preserve (P := fun s => ∀ y ∈ s, P y) ?_ _ (reachSeed g) hbase x hx
  intro s hs
  refine foldl_preserve_mem (P := fun s => ∀ y ∈ s, P y) g.rules ?_ s hs
  intro s2 p hp hs2 y hy
  unfold reachStep at hy
  split at hy
  · rename_i hp1
    unfold addSyms at hy
    revert y hy
    refine foldl_preserve_mem (P := fun s => ∀ y ∈ s, P y) p.2.flatten ?_ s2 hs2
    intro s3 z hz hs3 y hy
    split at hy
    · rename_i hcond
      rcases List.mem_append.mp hy with h1 | h1
      · exact hs3 y h1
      · have hy1 : y = z := by simpa using h1
        subst hy1
        exact hP p hp (hs2 p.1 hp1) y hz hcond.1
    · exact hs3 y hy
  · exact hs2 y hy

theorem map_eq_self_of {α : Type} {f : α → α} :
    ∀ {l : List α}, (∀ x ∈ l, f x = x) → l.map f = l := by
  intro l
  induction l with
  | nil => intro _; rfl
  | cons x xs ih =>
    intro h
    rw [List.map_cons, h x (List.mem_cons_self _ _), ih fun y hy => h y (List.mem_cons_of_mem _ hy)]

/-- C4 (counterexample): on `gAliveReach` the pruned grammar keeps only
`S`, while `A` is both alive and reachable in the input grammar, so the
claimed `N = Alive(G) ∩ Reachable(G)` fails. -/
theorem c4_delete_extra_counterexample :
    deleteExtraNonTerminals gAliveReach = some gAliveReachOut ∧
    "A" ∈ aliveList gAliveReach ∧ "A" ∈ reachList gAliveReach ∧
    "A" ∉ gAliveReachOut.nonTerminals :=
  ⟨by decide, by decide, by decide, by decide⟩

/-- C4 (amended): on every well-formed grammar on which it completes,
`delete_extra_non_terminals` is idempotent — a second application returns
the same grammar, the non-terminal set compared as a set — and the
resulting non-terminal set is *contained in* `Alive(G) ∩ Reachable(G)`
(it equals the set of non-terminals still reachable once the dead ones and
the alternatives mentioning them are gone, which the counterexample shows
can be strictly smaller). -/
theorem c4_delete_extra_idempotent (g g2 : Cfg) (hwf : keysSubset g)
    (h : deleteExtraNonTerminals g = some g2) :
    ∃ g3, deleteExtraNonTerminals g2 = some g3 ∧
      g3.rules = g2.rules ∧ g3.start = g2.start ∧ g3.terminals = g2.terminals ∧
      g3.lastUsed = g2.lastUsed ∧ g3.nonTerminals.toFinset = g2.nonTerminals.toFinset ∧
      (∀ x ∈ g2.nonTerminals, x ∈ aliveList g ∧ x ∈ reachList g) := by
  unfold deleteExtraNonTerminals at h
  cases hd : deleteDead g with
  | none => rw [hd] at h; cases h
  | some g1 =>
    rw [hd] at h
    simp only [Option.map_some', Option.some.injEq] at h
    simp only [deleteDead] at hd
    split at hd
    case isFalse => cases hd
    case isTrue hguard =>
    simp only [Option.some.injEq] at hd
    -- field equations for g1 and g2
    have hg1R : g1.rules
        = (g.rules.filter fun p => ¬(p.1 ∈ g.nonTerminals ∧ p.1 ∉ aliveList g)).map
            fun p => (p.1, p.2.filter fun r => ∀ x ∈ r, x ∈ g.terminals ∨ x ∈ aliveList g) := by
      rw [← hd]
    have hg1N : g1.nonTerminals = aliveList g := by rw [← hd]
    have hg1T : g1.terminals = g.terminals := by rw [← hd]
    have hg1S : g1.start = g.start := by rw [← hd]
    have hg1L : g1.lastUsed = g.lastUsed := by rw [← hd]
    have hg2R : g2.rules
        = g1.rules.filter fun p => ¬(p.1 ∈ g1.nonTerminals ∧ p.1 ∉ reachList g1) := by
      rw [← h]; rfl
    have hg2N : g2.nonTerminals = reachList g1 := by rw [← h]; rfl
    have hg2T : g2.terminals = g1.terminals := by rw [← h]; rfl
    have hg2S : g2.start = g1.start := by rw [← h]; rfl
    have hg2L : g2.lastUsed = g1.lastUsed := by rw [← h]; rfl
    -- (F1) every key of g1.rules is alive in g
    have hkeys1 : ∀ p ∈ g1.rules, p.1 ∈ aliveList g := by
      intro p hp
      rw [hg1R] at hp
      rcases List.mem_map.mp hp with ⟨q, hq, rfl⟩
      have hq2 := List.mem_filter.mp hq
      have hcond := hq2.2
      simp only [decide_eq_true_eq] at hcond
      have hN : q.1 ∈ g.nonTerminals := hwf _ (List.mem_map_of_mem _ hq2.1)
      by_cases ha : q.1 ∈ aliveList g
      · exact ha
      · exact absurd ⟨hN, ha⟩ hcond
    -- (F2) every body symbol of g1.rules is a terminal or alive in g
    have hbody1 : ∀ p ∈ g1.rules, ∀ r ∈ p.2, ∀ x ∈ r,
        x ∈ g.terminals ∨ x ∈ aliveList g := by
      intro p hp r hr
      rw [hg1R] at hp
      rcases List.mem_map.mp hp with ⟨q, _, rfl⟩
      have := (List.mem_filter.mp hr).2
      simpa using this
    -- (F3) every entry of g1.rules shrinks an entry of g.rules
    have hsub1 : ∀ p ∈ g1.rules, ∃ q, q ∈ g.rules ∧ p.1 = q.1 ∧
        ∀ x ∈ p.2.flatten, x ∈ q.2.flatten := by
      intro p hp
      rw [hg1R] at hp
      rcases List.mem_map.mp hp with ⟨q, hq, rfl⟩
      refine ⟨q, List.mem_of_mem_filter hq, rfl, ?_⟩
      intro x hx
      rcases List.mem_flatten.mp hx with ⟨r, hr, hxr⟩
      exact List.mem_flatten.mpr ⟨r, List.mem_of_mem_filter hr, hxr⟩
    -- (F5) every key of g2.rules is reachable in g1
    have hkeys2 : ∀ p ∈ g2.rules, p.1 ∈ reachList g1 := by
      intro p hp
      rw [hg2R] at hp
      have h2 := List.mem_filter.mp hp
      have hcond := h2.2
      simp only [decide_eq_true_eq] at hcond
      have hA : p.1 ∈ g1.nonTerminals := by
        rw [hg1N]; exact hkeys1 p h2.1
      by_cases hr : p.1 ∈ reachList g1
      · exact hr
      · exact absurd ⟨hA, hr⟩ hcond
    -- (F6) everything reachable in g1 is alive in g
    have hreachsub : ∀ x ∈ reachList g1, x ∈ aliveList g := by
      intro x hx
      have := reachList_sub g1 x hx
      rwa [hg1N] at this
    have hg2sub1 : ∀ p ∈ g2.rules, p ∈ g1.rules := by
      intro p hp
      rw [hg2R] at hp
      exact List.mem_of_mem_filter hp
    -- (G) alive in the pruned grammar = reachable in g1
    have hG : ∀ x ∈ aliveList g,
        x ∈ aliveList g ∧ (x ∈ reachList g1 → x ∈ aliveList g2) := by
      apply aliveList_induction g
      intro p hp r hr hall
      have hp1alive : p.1 ∈ aliveList g :=
        aliveList_closed g p hp ⟨r, hr, fun x hx => (hall x hx).imp id And.left⟩
      refine ⟨hp1alive, ?_⟩
      intro hp1reach
      have hp1' : (p.1, p.2.filter fun r => ∀ x ∈ r, x ∈ g.terminals ∨ x ∈ aliveList g)
          ∈ g1.rules := by
        rw [hg1R]
        apply List.mem_map_of_mem
        apply List.mem_filter.mpr
        refine ⟨hp, ?_⟩
        simp only [decide_eq_true_eq]
        intro hcon
        exact hcon.2 hp1alive
      have hrin : r ∈ p.2.filter fun r => ∀ x ∈ r, x ∈ g.terminals ∨ x ∈ aliveList g := by
        apply List.mem_filter.mpr
        refine ⟨hr, ?_⟩
        simp only [decide_eq_true_eq]
        exact fun x hx => (hall x hx).imp id And.left
      have hp2' : (p.1, p.2.filter fun r => ∀ x ∈ r, x ∈ g.terminals ∨ x ∈ aliveList g)
          ∈ g2.rules := by
        rw [hg2R]
        apply List.mem_filter.mpr
        refine ⟨hp1', ?_⟩
        simp only [decide_eq_true_eq]
        intro hcon
        exact hcon.2 hp1reach
      apply aliveList_closed g2 _ hp2'
      refine ⟨r, hrin, ?_⟩
      intro x hx
      rcases hall x hx with h1 | h1
      · left; rw [hg2T, hg1T]; exact h1
      · right
        have hx1 : x ∈ reachList g1 := by
          apply reachList_closed g1 _ hp1' hp1reach x
          · exact List.mem_flatten.mpr ⟨r, hrin, hx⟩
          · rw [hg1N]; exact h1.1
        exact h1.2 hx1
    have hAL2 : ∀ k ∈ reachList g1, k ∈ aliveList g2 := fun k hk =>
      (hG k (hreachsub k hk)).2 hk
    have hAL2sub : ∀ k ∈ aliveList g2, k ∈ reachList g1 := by
      intro k hk
      have := aliveList_sub_keys g2 k hk
      rcases List.mem_map.mp this with ⟨p, hp, rfl⟩
      exact hkeys2 p hp
    -- deleteDead g2 changes nothing but the non-terminal list
    have hg2keyfilter :
        (g2.rules.filter fun p => ¬(p.1 ∈ g2.nonTerminals ∧ p.1 ∉ aliveList g2))
          = g2.rules := by
      apply List.filter_eq_self.mpr
      intro p hp
      simp only [decide_eq_true_eq]
      intro hcon
      exact hcon.2 (hAL2 p.1 (hkeys2 p hp))
    have hg2groupfilter : ∀ p ∈ g2.rules,
        (p.2.filter fun r => ∀ x ∈ r, x ∈ g2.terminals ∨ x ∈ aliveList g2) = p.2 := by
      intro p hp
      apply List.filter_eq_self.mpr
      intro r hr
      simp only [decide_eq_true_eq]
      intro x hx
      rcases hbody1 p (hg2sub1 p hp) r hr x hx with h1 | h1
      · left; rw [hg2T, hg1T]; exact h1
      · right
        apply hAL2
        apply reachList_closed g1 _ (hg2sub1 p hp) (hkeys2 p hp) x
        · exact List.mem_flatten.mpr ⟨r, hr, hx⟩
        · rw [hg1N]; exact h1
    have hdead2 : deleteDead g2 = some { g2 with nonTerminals := aliveList g2 } := by
      unfold deleteDead
      rw [if_pos]
      · have hmap : (g2.rules.filter fun p =>
            ¬(p.1 ∈ g2.nonTerminals ∧ p.1 ∉ aliveList g2)).map
              (fun p => (p.1, p.2.filter fun r => ∀ x ∈ r, x ∈ g2.terminals ∨ x ∈ aliveList g2))
            = g2.rules := by
          rw [hg2keyfilter]
          apply map_eq_self_of
          intro p hp
          rw [hg2groupfilter p hp]
        rw [hmap]
      · intro s hs hsa
        exact absurd (hAL2 s (by rw [← hg2N]; exact hs)) hsa
    -- the second unreachable pass
    have hsn : ({ g2 with nonTerminals := aliveList g2 } : Cfg).rules = g2.rules := rfl
    have hr2sub : ∀ x ∈ reachList { g2 with nonTerminals := aliveList g2 },
        x ∈ reachList g1 := by
      apply reachList_induction { g2 with nonTerminals := aliveList g2 }
      · intro hst
        have hst2 : g2.start ∈ aliveList g2 := hst
        show g2.start ∈ reachList g1
        exact hAL2sub _ hst2
      · intro p hp hP x hxf hxn
        apply reachList_closed g1 _ (hg2sub1 p hp) hP x hxf
        rw [hg1N]
        exact hreachsub x (hAL2sub x hxn)
    have hr2sup : ∀ x ∈ reachList g1,
        x ∈ reachList { g2 with nonTerminals := aliveList g2 } := by
      apply reachList_induction g1
      · intro hst
        have hst1 : g1.start ∈ reachList g1 := reachList_start g1 hst
        have hst2 : g1.start ∈ aliveList g2 := hAL2 _ hst1
        have hrs : ({ g2 with nonTerminals := aliveList g2 } : Cfg).start
            ∈ ({ g2 with nonTerminals := aliveList g2 } : Cfg).nonTerminals := by
          show g2.start ∈ aliveList g2
          rw [hg2S]
          exact hst2
        have hfin := reachList_start _ hrs
        rw [← hg2S]
        exact hfin
      · intro p hp hP x hxf hxn
        have hp1r1 : p.1 ∈ reachList g1 :=
          hr2sub _ hP
        have hpin2 : p ∈ g2.rules := by
          rw [hg2R]
          apply List.mem_filter.mpr
          refine ⟨hp, ?_⟩
          simp only [decide_eq_true_eq]
          intro hcon
          exact hcon.2 hp1r1
        have hxr1 : x ∈ reachList g1 := reachList_closed g1 _ hp hp1r1 x hxf hxn
        apply reachList_closed { g2 with nonTerminals := aliveList g2 } _ hpin2 hP x hxf
        show x ∈ aliveList g2
        exact hAL2 x hxr1
    refine ⟨{ g2 with nonTerminals := reachList { g2 with nonTerminals := aliveList g2 } },
      ?_, rfl, rfl, rfl, rfl, ?_, ?_⟩
    · unfold deleteExtraNonTerminals
      rw [hdead2]
      simp only [Option.map_some', Option.some.injEq]
      unfold deleteUnreachable
      dsimp only
      congr 1
      apply List.filter_eq_self.mpr
      intro p hp
      simp only [decide_eq_true_eq]
      intro hcon
      exact hcon.2 (hr2sup _ (hkeys2 p hp))
    · apply Finset.ext
      intro x
      simp only [List.mem_toFinset]
      constructor
      · intro hx
        rw [hg2N]
        exact hr2sub x hx
      · intro hx
        rw [hg2N] at hx
        exact hr2sup x hx
    · intro x hx
      rw [hg2N] at hx
      refine ⟨hreachsub x hx, ?_⟩
      revert x hx
      apply reachList_induction g1
      · intro hst
        have hsk : g1.start ∈ keysOf g.rules := by
          apply aliveList_sub_keys g
          rw [← hg1N]
          exact hst
        have hsN : g1.start ∈ g.nonTerminals := hwf _ hsk
        rw [hg1S] at hsN ⊢
        exact reachList_start g hsN
      · intro p hp hP x hxf hxn
        obtain ⟨q, hq, hpq, hflat⟩ := hsub1 p hp
        apply reachList_closed g q hq (by rw [← hpq]; exact hP) x (hflat x hxf)
        apply hwf
        apply aliveList_sub_keys g
        rw [← hg1N]
        exact hxn

/-- Witness for C4 at `gAliveReach`: the hypotheses hold and the amended
conclusion is produced by the theorem itself. -/
theorem c4_delete_extra_idempotent_witness :
    keysSubset gAliveReach ∧
    ∃ g3, deleteExtraNonTerminals gAliveReachOut = some g3 ∧
      g3.rules = gAliveReachOut.rules ∧ g3.start = gAliveReachOut.start ∧
      g3.terminals = gAliveReachOut.terminals ∧ g3.lastUsed = gAliveReachOut.lastUsed ∧
      g3.nonTerminals.toFinset = gAliveReachOut.nonTerminals.toFinset ∧
      (∀ x ∈ gAliveReachOut.nonTerminals,
        x ∈ aliveList gAliveReach ∧ x ∈ reachList gAliveReach) :=
  ⟨by decide, c4_delete_extra_idempotent gAliveReach gAliveReachOut (by decide) (by decide)⟩

/-- C8: the three `has_left_recursion` examples of the spec, literally. -/
theorem c8_has_left_recursion_examples :
    hasLeftRecursion gLoop = some true ∧
    hasLeftRecursion gChainNull = some false ∧
    hasLeftRecursion gIndirect = some true := by
  refine ⟨by decide, by decide, by decide⟩

/-- C9: constructing a `Parser` from a grammar leaves the grammar itself
unchanged in every field — the constructor deep-copies and normalizes only
the copy — even though the internal grammar really is rewritten (on the
brackets grammar the normalization succeeds and produces a different
grammar). -/
theorem c9_parser_preserves_input :
    (∀ g : Cfg, (parserInit g).2 = g) ∧
    (parserInit gBrackets).1 ≠ some gBrackets ∧
    (parserInit gBrackets).1 ≠ none := by
  refine ⟨fun _ => rfl, by decide, by decide⟩

end Spec2
